import Mathlib

/-!
Verification of `isotropic_basis_3d.py` (class `IsotropicBasis3D`):
shallow embedding of the radial-binning transform pair.

Modelling conventions:
* numpy float64/float32 arithmetic is modelled as exact rational arithmetic
  (`ℚ`); the float32 cast in `evaluate` is modelled as the identity on values.
* A numpy ndarray is modelled as `NDArray`: a row-major flat list of values
  together with its shape.
* The grid side `N` and bin count `nbins` are modelled as `ℕ` (the claims under
  study only concern non-negative parameters).
* `np.rint(np.sqrt t)` for a rational `t ≥ 0` is computed exactly by `rintSqrt`
  (round-half-to-even of `√t`, decided by rational comparisons against
  `(n + 1/2)^2`); the theorem `rintSqrt_spec` proves it agrees with
  round-half-to-even of the real number `Real.sqrt t`, and `sqrt_div_mul_eq`
  proves the algebraic identity `√a/√b * m = √(a/b * m²)` used to push the
  scaling of line 27 of the source under the square root.
* `r.max()` (line 26) is computed on squared radii (`rsqMax`); the theorem
  `sqrt_rsqMax` proves this equals the maximum of the radii themselves.
-/

/-- Line 22: `coords = np.arange(N) - (N - 1) / 2`, the centered coordinate of
grid index `i` (float arithmetic, so `(N-1)/2` is an exact half-integer). -/
def coordC (N : ℕ) (i : ℕ) : ℚ := (i : ℚ) - ((N : ℚ) - 1) / 2

/-- Line 24 at one voxel: the squared Euclidean radius `x² + y² + z²` of voxel
`(i, j, k)`.  The source stores `r = sqrt(x²+y²+z²)`; we carry the square. -/
def rsq (N : ℕ) (i j k : ℕ) : ℚ := (coordC N i) ^ 2 + (coordC N j) ^ 2 + (coordC N k) ^ 2

/-- The squared-radius grid flattened in C (row-major) order: `meshgrid` with
`indexing="ij"` followed by `.ravel()` puts voxel `(i,j,k)` at flat position
`i*N² + j*N + k`. -/
def rsqFlat (N : ℕ) : List ℚ :=
  (List.range (N * N * N)).map (fun v => rsq N (v / (N * N)) (v / N % N) (v % N))

/-- Line 26: `rmax = r.max()`, carried as the maximum squared radius.
(`sqrt_rsqMax` below: `√rsqMax = (map sqrt rsqFlat).max`.)  On an empty grid
(`N = 0`) numpy raises; we return the junk value 0. -/
def rsqMax (N : ℕ) : ℚ := (rsqFlat N).foldr max 0

/-- Round-half-to-even (`np.rint`) of `Real.sqrt q` for a rational `q ≥ 0`,
decided by rational comparisons: `n = ⌊√q⌋ = Nat.sqrt ⌊q⌋₊`, and `√q` compares
to `n + 1/2` as `q` compares to `(n + 1/2)²`.  Junk value for `q < 0` (never
reached: its argument is a quotient of squares).  Validated by `rintSqrt_spec`. -/
def rintSqrt (q : ℚ) : ℤ :=
  let n : ℕ := Nat.sqrt ⌊q⌋₊
  if q < ((n : ℚ) + 1/2) ^ 2 then (n : ℤ)
  else if ((n : ℚ) + 1/2) ^ 2 < q then (n : ℤ) + 1
  else if Even n then (n : ℤ) else (n : ℤ) + 1

/-- Line 29: `np.clip(x, lo, hi) = np.minimum(np.maximum(x, lo), hi)`. -/
def npClip (x lo hi : ℤ) : ℤ := min (max x lo) hi

/-- Lines 27-28 at one voxel: `rint((r / rmax) * (nbins - 1))`, written with the
scaling pushed under the square root:
`(√rsq / √rsqMax) * m = √(rsq / rsqMax * m²)` (theorem `sqrt_div_mul_eq`). -/
def rbinRawEntry (N nbins : ℕ) (q : ℚ) : ℤ :=
  rintSqrt (q / rsqMax N * ((nbins : ℚ) - 1) ^ 2)

/-- Lines 20-29, `_precompute_radius_bins`: the flattened bin-index grid
`np.clip(np.rint((r / rmax) * (nbins - 1)), 0, nbins - 1)`. -/
def rbinFlat (N nbins : ℕ) : List ℤ :=
  (rsqFlat N).map (fun q => npClip (rbinRawEntry N nbins q) 0 ((nbins : ℤ) - 1))

/-- The class: `__init__` stores `N` and `nbins` (line 14-18); `_rbin` is the
pure function `rbinFlat` of the two (recomputed nowhere, mutated by nothing). -/
structure IsotropicBasis3D where
  N : ℕ
  nbins : ℕ
deriving DecidableEq

/-- Lines 14-18, `__init__(N, nbins=None)`: `nbins` defaults to `N // 2 + 1`.
No validation of any kind is performed; construction is a total function. -/
def construct (N : ℕ) (nbins? : Option ℕ) : IsotropicBasis3D :=
  { N := N, nbins := nbins?.getD (N / 2 + 1) }

/-- The precomputed immutable bin grid `self._rbin` of a basis instance. -/
def IsotropicBasis3D.rbin (b : IsotropicBasis3D) : List ℤ := rbinFlat b.N b.nbins

/-- A numpy ndarray: shape together with the row-major flattened data. -/
structure NDArray where
  shape : List ℕ
  data : List ℚ
deriving DecidableEq

/-- Well-formedness of an ndarray: the data has exactly `shape.prod` entries. -/
def NDArray.wf (a : NDArray) : Prop := a.data.length = a.shape.prod

instance (a : NDArray) : Decidable a.wf := by unfold NDArray.wf; infer_instance

/-- The errors the two transforms can raise: the failed `assert` of lines 36 and
61 (called `ShapeError` in the design), and the `IndexError` numpy raises for
`coeffs.shape[0]` on a 0-dimensional array. -/
inductive TErr where
  | ShapeError : TErr
  | IndexError : TErr
deriving DecidableEq

/-- Line 41, `np.bincount(bins, weights=w, minlength=m)` entry by entry:
position `b` accumulates `w[i]` over all `i` with `bins[i] = b`.  (All bins
here are clipped into `[0, m-1]`, so the result length is exactly `m`.) -/
def bincountW (bins : List ℤ) (w : List ℚ) (m : ℕ) : List ℚ :=
  (List.range m).map (fun (b : ℕ) =>
    (bins.zip w).foldr (fun p acc => if p.1 = (b : ℤ) then p.2 + acc else acc) 0)

/-- Line 42, `np.bincount(bins, minlength=m)`: occurrence counts per bin. -/
def bincount (bins : List ℤ) (m : ℕ) : List ℕ :=
  (List.range m).map (fun (b : ℕ) => bins.count (b : ℤ))

/-- Lines 32-46, `evaluate_t` (forward transform): assert the shape, flatten,
per-bin sums and counts, then `np.divide(sums, counts, out=zeros, where=counts>0)`
— entries with zero count keep the 0 of `np.zeros`. -/
def evaluate_t (b : IsotropicBasis3D) (volume : NDArray) : Except TErr NDArray :=
  if volume.shape = [b.N, b.N, b.N] then
    let flat_bins := b.rbin
    let flat_vals := volume.data
    let sums := bincountW flat_bins flat_vals b.nbins
    let counts := bincount flat_bins b.nbins
    .ok { shape := [b.nbins],
          data := (sums.zip counts).map (fun p => if 0 < p.2 then p.1 / (p.2 : ℚ) else 0) }
  else .error .ShapeError

/-- Lines 57-62, `evaluate` (inverse transform): `assert coeffs.shape[0] == nbins`
(an `IndexError` on a 0-d array), then fancy indexing `coeffs[self._rbin]`: the
result has shape `(N, N, N) ++ coeffs.shape[1:]`, and voxel `v` receives the
row `coeffs[rbin[v]]` (a block of `coeffs.shape[1:].prod` scalars).  Bin indices
are non-negative (clipped), so no negative-index wraparound arises; the
`astype(np.float32)` is the identity on values in this model. -/
def evaluate (b : IsotropicBasis3D) (coeffs : NDArray) : Except TErr NDArray :=
  match coeffs.shape with
  | [] => .error .IndexError
  | n0 :: rest =>
    if n0 = b.nbins then
      let T := rest.prod
      .ok { shape := b.N :: b.N :: b.N :: rest,
            data := b.rbin.flatMap (fun e =>
              (List.range T).map (fun t => coeffs.data.getD (e.toNat * T + t) 0)) }
    else .error .ShapeError

/-- A store of live numpy arrays (for the aliasing semantics of `.copy()`):
arrays are identified by their index in the store. -/
abbrev Store := List (List ℚ)

/-- Lines 49-54, `keep_isotropic`: `return coeffs.copy()` — allocates a fresh
array with the same contents and returns (the reference to) it. -/
def keep_isotropic (s : Store) (r : ℕ) : Store × ℕ :=
  (s ++ [s.getD r []], s.length)

/-- In-place mutation `arr[i] = v` of the array referenced by `r`. -/
def setVal (s : Store) (r i : ℕ) (v : ℚ) : Store :=
  s.set r ((s.getD r []).set i v)

instance : DecidableEq (Except TErr NDArray) := fun x y =>
  match x, y with
  | .ok a, .ok b => if h : a = b then isTrue (by rw [h]) else isFalse (by simp [h])
  | .error e, .error f => if h : e = f then isTrue (by rw [h]) else isFalse (by simp [h])
  | .ok _, .error _ => isFalse (by simp)
  | .error _, .ok _ => isFalse (by simp)

/-- Claim-side formulation: the list of voxel values of `vol` whose precomputed
bin index equals `i` (pairing the flattened bin grid with the flattened data). -/
def binValues (b : IsotropicBasis3D) (vol : NDArray) (i : ℕ) : List ℚ :=
  ((b.rbin.zip vol.data).filter (fun p => p.1 = (i : ℤ))).map Prod.snd

/-- The constant `N×N×N` volume with every voxel equal to `k`. -/
def constVol (N : ℕ) (k : ℚ) : NDArray :=
  { shape := [N, N, N], data := List.replicate (N * N * N) k }

/-! ## General list lemmas -/

theorem foldr_if_eq_filter_sum (ps : List (ℤ × ℚ)) (b : ℤ) :
    ps.foldr (fun p acc => if p.1 = b then p.2 + acc else acc) 0 =
      ((ps.filter (fun p => p.1 = b)).map Prod.snd).sum := by
  induction ps with
  | nil => simp
  | cons p ps ih => by_cases h : p.1 = b <;> simp [h, ih]

theorem zip_filter_length_eq_count (bs : List ℤ) (vs : List ℚ) (b : ℤ)
    (h : bs.length = vs.length) :
    ((bs.zip vs).filter (fun p => p.1 = b)).length = bs.count b := by
  induction bs generalizing vs with
  | nil => simp
  | cons x bs ih =>
    cases vs with
    | nil => simp at h
    | cons v vs =>
      simp only [List.length_cons, Nat.succ.injEq] at h
      by_cases hx : x = b <;>
        simp [List.count_cons, hx, ih vs h]

theorem getD_map_range {α : Type} (f : ℕ → α) (m i : ℕ) (h : i < m) (d : α) :
    ((List.range m).map f).getD i d = f i := by
  simp [List.getD_eq_getElem?_getD, List.getElem?_map, List.getElem?_range, h]

/-! ## Concrete evaluation lemmas (the `N = 3` scenario, and small grids) -/

theorem rsqFlat_one : rsqFlat 1 = [0] := by
  norm_num [rsqFlat, rsq, coordC, List.range_succ]

theorem rsqMax_one : rsqMax 1 = 0 := by
  norm_num [rsqMax, rsqFlat_one]

theorem rsqFlat_two : rsqFlat 2 = List.replicate 8 (3/4) := by
  norm_num [rsqFlat, rsq, coordC, List.range_succ, List.replicate]

theorem rsqMax_two : rsqMax 2 = 3/4 := by
  norm_num [rsqMax, rsqFlat_two, List.replicate, max_def]

theorem rbinFlat_two_two : rbinFlat 2 2 = List.replicate 8 1 := by
  norm_num [rbinFlat, rbinRawEntry, rsqFlat_two, rsqMax_two, rintSqrt, npClip,
    List.replicate, Nat.sqrt_one, max_def, min_def]

theorem rsqFlat_three :
    rsqFlat 3 = [3, 2, 3, 2, 1, 2, 3, 2, 3,
                 2, 1, 2, 1, 0, 1, 2, 1, 2,
                 3, 2, 3, 2, 1, 2, 3, 2, 3] := by
  norm_num [rsqFlat, rsq, coordC, List.range_succ]

theorem rsqMax_three : rsqMax 3 = 3 := by
  norm_num [rsqMax, rsqFlat_three, max_def]

theorem floor_one_third : ⌊(1/3 : ℚ)⌋₊ = 0 := by
  rw [Nat.floor_eq_zero]; norm_num

theorem floor_two_thirds : ⌊(2/3 : ℚ)⌋₊ = 0 := by
  rw [Nat.floor_eq_zero]; norm_num

theorem rbinFlat_three_two :
    rbinFlat 3 2 = [1, 1, 1, 1, 1, 1, 1, 1, 1,
                    1, 1, 1, 1, 0, 1, 1, 1, 1,
                    1, 1, 1, 1, 1, 1, 1, 1, 1] := by
  norm_num [rbinFlat, rbinRawEntry, rsqFlat_three, rsqMax_three, rintSqrt, npClip,
    floor_one_third, floor_two_thirds, Nat.sqrt_one, Nat.sqrt_zero, max_def, min_def]


theorem replicate27 :
    List.replicate 27 (1:ℚ) = [1,1,1,1,1,1,1,1,1,1,1,1,1,1,1,1,1,1,1,1,1,1,1,1,1,1,1] := rfl

/-- C4: for the basis with `N = 3`, `nbins = 2`: the center voxel (flat index
`1·9 + 1·3 + 1 = 13`) maps to bin 0; each of the eight corner voxels
(flat indices `{0,2,6,8,18,20,24,26}`) maps to bin 1; the forward transform of
the all-ones `3×3×3` volume is exactly `[1, 1]`; and the inverse transform of
`[1, 1]` is the all-ones volume. -/
theorem concrete_N3_nbins2 :
    (construct 3 (some 2)).rbin.getD 13 0 = 0 ∧
    (∀ v ∈ [0, 2, 6, 8, 18, 20, 24, 26], (construct 3 (some 2)).rbin.getD v 0 = 1) ∧
    evaluate_t (construct 3 (some 2)) { shape := [3,3,3], data := List.replicate 27 1 } =
      .ok { shape := [2], data := [1, 1] } ∧
    evaluate (construct 3 (some 2)) { shape := [2], data := [1, 1] } =
      .ok { shape := [3,3,3], data := List.replicate 27 1 } := by
  refine ⟨?_, ?_, ?_, ?_⟩
  · show (rbinFlat 3 2).getD 13 0 = 0
    rw [rbinFlat_three_two]; rfl
  · show ∀ v ∈ [0, 2, 6, 8, 18, 20, 24, 26], (rbinFlat 3 2).getD v 0 = 1
    rw [rbinFlat_three_two]
    decide
  · simp only [evaluate_t, construct, Option.getD, IsotropicBasis3D.rbin, rbinFlat_three_two,
      replicate27]
    norm_num [bincountW, bincount, List.range_succ, List.count_cons]
  · simp only [evaluate, construct, Option.getD, IsotropicBasis3D.rbin, rbinFlat_three_two,
      replicate27]
    have h1 : List.range 1 = [0] := rfl
    norm_num [h1, List.getElem?_cons_zero, List.getElem?_cons_succ]

/-- C5 counterexample: `N = 2`, `nbins = 2` is a valid construction
(`rsqMax 2 = 3/4 > 0`), and all eight voxels of the `2×2×2` grid are the
central voxels (coordinates `(±1/2, ±1/2, ±1/2)`), yet the precomputed bin grid
is all ones — in particular the central voxel at flat index 7 gets bin 1, not
bin 0: their scaled radius is `(r/rmax)·(nbins-1) = 1`, which rounds to the
last bin, not to bin 0. -/
theorem even_N_center_not_bin_zero :
    rsqMax 2 = 3/4 ∧
    rbinFlat 2 2 = List.replicate 8 1 ∧
    (rbinFlat 2 2).getD 7 0 ≠ 0 := by
  refine ⟨rsqMax_two, rbinFlat_two_two, ?_⟩
  rw [rbinFlat_two_two]; decide

/-- C6: `__init__` performs no validation at all: constructing with `N = 1`
and `nbins = 2` succeeds (no `ConstructionError` exists in the code), although
there `rmax = 0`, so `r / rmax` on line 27 divides by zero (in numpy:
`0/0 → NaN` propagated into the bin-index cast).  Also shown: the default
`nbins = N // 2 + 1` of line 16. -/
theorem construction_unvalidated :
    construct 1 (some 2) = { N := 1, nbins := 2 } ∧
    construct 5 none = { N := 5, nbins := 3 } ∧
    rsqMax 1 = 0 :=
  ⟨rfl, rfl, rsqMax_one⟩

/-- C7 counterexample: the inverse transform accepts an input of shape
`(2, 1)`, which is not a length-`nbins` vector — the `assert` of line 61
inspects only `coeffs.shape[0]`, so no error is raised and a result is
produced. -/
theorem evaluate_accepts_extra_dims :
    (evaluate (construct 3 (some 2)) { shape := [2, 1], data := [5, 7] }).isOk = true := rfl

/-! ## Range of the bin grid (C2) -/

theorem rbin_mem_bounds (N nbins : ℕ) (hb : 1 ≤ nbins) :
    ∀ e ∈ rbinFlat N nbins, 0 ≤ e ∧ e ≤ (nbins : ℤ) - 1 := by
  intro e he
  simp only [rbinFlat, List.mem_map] at he
  obtain ⟨q, -, rfl⟩ := he
  simp only [npClip]
  omega

/-- C2: for every valid construction the precomputed grid assigns exactly one
bin index to each of the `N³` voxels (one list entry per voxel), and every
entry lies in `[0, nbins-1]`.  The grid is a pure function of `(N, nbins)`
(`IsotropicBasis3D.rbin` is defined as `rbinFlat b.N b.nbins`), so no
operation can change it. -/
theorem rbin_grid_bounds (N nbins : ℕ) (_hN : 1 ≤ N) (hb : 1 ≤ nbins)
    (_hscale : 1 < nbins → 0 < rsqMax N) :
    (rbinFlat N nbins).length = N * N * N ∧
    ∀ e ∈ rbinFlat N nbins, 0 ≤ e ∧ e ≤ (nbins : ℤ) - 1 :=
  ⟨by simp [rbinFlat, rsqFlat], rbin_mem_bounds N nbins hb⟩

theorem rbin_grid_bounds_witness :
    (rbinFlat 3 2).length = 3 * 3 * 3 ∧
    ∀ e ∈ rbinFlat 3 2, 0 ≤ e ∧ e ≤ (2 : ℤ) - 1 :=
  rbin_grid_bounds 3 2 (by norm_num) (by norm_num)
    (fun _ => by rw [rsqMax_three]; norm_num)

/-! ## Shape checking (C7 amended, C9) -/

/-- C7 (amended): the forward transform errors exactly on inputs whose shape is
not `(N, N, N)`; the inverse transform errors exactly when the first dimension
of the input's shape is not `nbins` (shapes `(nbins, k, ...)` are accepted).
In either error case no output is produced. -/
theorem shape_checks (b : IsotropicBasis3D) (vol c : NDArray) :
    (evaluate_t b vol = .error .ShapeError ↔ vol.shape ≠ [b.N, b.N, b.N]) ∧
    ((∃ e, evaluate b c = .error e) ↔ c.shape.head? ≠ some b.nbins) := by
  constructor
  · unfold evaluate_t
    by_cases h : vol.shape = [b.N, b.N, b.N] <;> simp [h]
  · unfold evaluate
    match hs : c.shape with
    | [] => simp
    | n0 :: rest =>
      by_cases h : n0 = b.nbins <;> simp [h]

/-- C9: any array whose first axis has length `nbins` is accepted by the
inverse transform, including multi-dimensional coefficient arrays of shape
`(nbins, k, ...)`; the output then has shape `(N, N, N, k, ...)`, which is not
`(N, N, N)` whenever extra dimensions are present. -/
theorem evaluate_first_axis_only (b : IsotropicBasis3D) (c : NDArray) (rest : List ℕ)
    (hshape : c.shape = b.nbins :: rest) :
    ∃ out, evaluate b c = .ok out ∧
      out.shape = b.N :: b.N :: b.N :: rest ∧
      (rest ≠ [] → out.shape ≠ [b.N, b.N, b.N]) := by
  have heval : evaluate b c = .ok
      { shape := b.N :: b.N :: b.N :: rest,
        data := b.rbin.flatMap (fun e =>
          (List.range rest.prod).map (fun t => c.data.getD (e.toNat * rest.prod + t) 0)) } := by
    simp [evaluate, hshape]
  refine ⟨_, heval, rfl, ?_⟩
  intro hne hEq
  simp only [List.cons.injEq] at hEq
  exact hne hEq.2.2.2

theorem evaluate_first_axis_only_witness :
    ∃ out, evaluate (construct 3 (some 2)) { shape := [2, 2], data := [1, 2, 3, 4] } = .ok out ∧
      out.shape = (construct 3 (some 2)).N :: (construct 3 (some 2)).N ::
        (construct 3 (some 2)).N :: [2] ∧
      (([2] : List ℕ) ≠ [] → out.shape ≠ [(construct 3 (some 2)).N,
        (construct 3 (some 2)).N, (construct 3 (some 2)).N]) :=
  evaluate_first_axis_only (construct 3 (some 2))
    { shape := [2, 2], data := [1, 2, 3, 4] } [2] rfl

/-! ## Copy semantics of keep_isotropic (C8) -/

/-- C8: `keep_isotropic` returns an array with exactly the contents of its
input, held in a freshly allocated object distinct from the input, so that
mutating the returned copy leaves the original untouched. -/
theorem keep_isotropic_copy (s : Store) (r : ℕ) (hr : r < s.length) :
    (keep_isotropic s r).1.getD (keep_isotropic s r).2 [] = s.getD r [] ∧
    (keep_isotropic s r).2 ≠ r ∧
    ∀ i v, (setVal (keep_isotropic s r).1 (keep_isotropic s r).2 i v).getD r [] =
      s.getD r [] := by
  refine ⟨?_, by simp [keep_isotropic]; omega, ?_⟩
  · simp [keep_isotropic, List.getD, List.getElem?_append_right]
  · intro i v
    simp only [keep_isotropic, setVal, List.getD, List.get?_eq_getElem?]
    rw [List.getElem?_set_ne (by omega)]
    rw [List.getElem?_append]
    simp [hr]

theorem keep_isotropic_copy_witness :
    (keep_isotropic [[1, 2]] 0).1.getD (keep_isotropic [[1, 2]] 0).2 [] =
      ([[1, 2]] : Store).getD 0 [] ∧
    (keep_isotropic [[1, 2]] 0).2 ≠ 0 ∧
    ∀ i v, (setVal (keep_isotropic [[1, 2]] 0).1 (keep_isotropic [[1, 2]] 0).2 i v).getD 0 [] =
      ([[1, 2]] : Store).getD 0 [] :=
  keep_isotropic_copy [[1, 2]] 0 (by simp)

/-! ## The forward transform computes per-bin means (C1) -/


theorem evaluate_t_eq (b : IsotropicBasis3D) (vol : NDArray)
    (hshape : vol.shape = [b.N, b.N, b.N]) :
    evaluate_t b vol = .ok
      { shape := [b.nbins],
        data := ((bincountW b.rbin vol.data b.nbins).zip (bincount b.rbin b.nbins)).map
          (fun p => if 0 < p.2 then p.1 / (p.2 : ℚ) else 0) } := by
  simp [evaluate_t, hshape]

theorem coeffs_entry (b : IsotropicBasis3D) (vals : List ℚ) (i : ℕ) (hi : i < b.nbins) :
    (((bincountW b.rbin vals b.nbins).zip (bincount b.rbin b.nbins)).map
      (fun p => if 0 < p.2 then p.1 / (p.2 : ℚ) else 0)).getD i 0 =
    if 0 < b.rbin.count (i : ℤ) then
      (((b.rbin.zip vals).filter (fun p => p.1 = (i : ℤ))).map Prod.snd).sum /
        (b.rbin.count (i : ℤ) : ℚ)
    else 0 := by
  rw [bincountW, bincount, List.zip_map', List.map_map]
  rw [getD_map_range _ _ _ hi]
  simp only [Function.comp]
  rw [foldr_if_eq_filter_sum]

theorem rbin_length (b : IsotropicBasis3D) : b.rbin.length = b.N * b.N * b.N := by
  simp [IsotropicBasis3D.rbin, rbinFlat, rsqFlat]

theorem data_length_of_cube (b : IsotropicBasis3D) (vol : NDArray)
    (hshape : vol.shape = [b.N, b.N, b.N]) (hwf : vol.wf) :
    vol.data.length = b.N * b.N * b.N := by
  rw [NDArray.wf, hshape] at hwf
  rw [hwf]
  simp [List.prod]
  ring

/-- C1: on any well-formed `N×N×N` volume the forward transform succeeds and
returns a length-`nbins` vector whose entry `i` is the arithmetic mean
(sum divided by cardinality) of the voxel values with bin index `i`, and is
exactly 0 when no voxel has bin index `i`. -/
theorem evaluate_t_binwise_mean (b : IsotropicBasis3D) (vol : NDArray)
    (hshape : vol.shape = [b.N, b.N, b.N]) (hwf : vol.wf) :
    ∃ c, evaluate_t b vol = .ok c ∧ c.shape = [b.nbins] ∧ c.data.length = b.nbins ∧
      ∀ i, i < b.nbins →
        (binValues b vol i ≠ [] →
          c.data.getD i 0 = (binValues b vol i).sum / ((binValues b vol i).length : ℚ)) ∧
        (binValues b vol i = [] → c.data.getD i 0 = 0) := by
  refine ⟨_, evaluate_t_eq b vol hshape, rfl, ?_, ?_⟩
  · simp [bincountW, bincount]
  · intro i hi
    have hlen : b.rbin.length = vol.data.length := by
      rw [rbin_length, data_length_of_cube b vol hshape hwf]
    have hcount : ((b.rbin.zip vol.data).filter (fun p => p.1 = (i : ℤ))).length =
        b.rbin.count (i : ℤ) := zip_filter_length_eq_count _ _ _ hlen
    constructor
    · intro hne
      rw [coeffs_entry b vol.data i hi]
      have hpos : 0 < b.rbin.count (i : ℤ) := by
        rw [← hcount]
        have : ((b.rbin.zip vol.data).filter (fun p => p.1 = (i : ℤ))) ≠ [] := by
          intro h0
          exact hne (by simp [binValues, h0])
        exact List.length_pos.mpr this
      rw [if_pos hpos]
      unfold binValues
      rw [List.length_map, hcount]
    · intro hemp
      rw [coeffs_entry b vol.data i hi]
      have hzero : b.rbin.count (i : ℤ) = 0 := by
        rw [← hcount]
        have : ((b.rbin.zip vol.data).filter (fun p => p.1 = (i : ℤ))) = [] := by
          have := hemp
          unfold binValues at this
          exact List.map_eq_nil_iff.mp this
        simp [this]
      simp [hzero]

theorem evaluate_t_binwise_mean_witness :
    ∃ c, evaluate_t (construct 1 (some 1)) { shape := [1, 1, 1], data := [5] } = .ok c ∧
      c.shape = [(construct 1 (some 1)).nbins] ∧
      c.data.length = (construct 1 (some 1)).nbins ∧
      ∀ i, i < (construct 1 (some 1)).nbins →
        (binValues (construct 1 (some 1)) { shape := [1, 1, 1], data := [5] } i ≠ [] →
          c.data.getD i 0 =
            (binValues (construct 1 (some 1)) { shape := [1, 1, 1], data := [5] } i).sum /
            ((binValues (construct 1 (some 1)) { shape := [1, 1, 1], data := [5] } i).length : ℚ)) ∧
        (binValues (construct 1 (some 1)) { shape := [1, 1, 1], data := [5] } i = [] →
          c.data.getD i 0 = 0) :=
  evaluate_t_binwise_mean (construct 1 (some 1)) { shape := [1, 1, 1], data := [5] }
    rfl (by simp [NDArray.wf])

/-! ## Constant volumes (C3) -/


theorem filter_zip_replicate (bs : List ℤ) (n : ℕ) (k : ℚ) (i : ℤ)
    (hlen : bs.length = n) :
    ((bs.zip (List.replicate n k)).filter (fun p => p.1 = i)).map Prod.snd =
      List.replicate (bs.count i) k := by
  induction bs generalizing n with
  | nil => simp
  | cons x bs ih =>
    cases n with
    | zero => simp at hlen
    | succ n =>
      simp only [List.length_cons, Nat.succ.injEq] at hlen
      by_cases hx : x = i <;>
        simp [List.replicate_succ, List.zip_cons_cons, List.count_cons, hx, ih n hlen]

theorem flatMap_singleton_eq_map {α β : Type} (l : List α) (f : α → β) :
    (l.flatMap (fun a => [f a])) = l.map f := by
  induction l with
  | nil => rfl
  | cons x l ih => simp [List.flatMap_cons, ih]

/-- Evaluating a plain coefficient vector (shape `[nbins]`): every voxel
receives the coefficient at its bin index. -/
theorem evaluate_vector_eq (b : IsotropicBasis3D) (c : NDArray)
    (hc : c.shape = [b.nbins]) :
    evaluate b c = .ok
      { shape := [b.N, b.N, b.N],
        data := b.rbin.map (fun e => c.data.getD e.toNat 0) } := by
  have h1 : List.range 1 = [0] := rfl
  simp only [evaluate, hc, eq_self_iff_true, if_true, List.prod_nil, h1, List.map_cons,
    List.map_nil, Nat.mul_one, Nat.add_zero]
  rw [flatMap_singleton_eq_map]

/-- C3: on a constant volume (all voxels `k`) the forward transform yields `k`
at every bin with a nonzero voxel count, and the inverse transform of that
result reconstructs the constant volume exactly. -/
theorem constant_volume_roundtrip (b : IsotropicBasis3D) (k : ℚ)
    (_hN : 1 ≤ b.N) (hb : 1 ≤ b.nbins) :
    ∃ c, evaluate_t b (constVol b.N k) = .ok c ∧
      (∀ i, i < b.nbins → 0 < b.rbin.count (i : ℤ) → c.data.getD i 0 = k) ∧
      evaluate b c = .ok (constVol b.N k) := by
  have hshape : (constVol b.N k).shape = [b.N, b.N, b.N] := rfl
  have hlen : b.rbin.length = b.N * b.N * b.N := rbin_length b
  have hentry : ∀ i, i < b.nbins → 0 < b.rbin.count (i : ℤ) →
      (((bincountW b.rbin (constVol b.N k).data b.nbins).zip (bincount b.rbin b.nbins)).map
        (fun p => if 0 < p.2 then p.1 / (p.2 : ℚ) else 0)).getD i 0 = k := by
    intro i hi hpos
    rw [coeffs_entry b _ i hi]
    rw [if_pos hpos]
    simp only [constVol]
    rw [filter_zip_replicate b.rbin _ k _ hlen]
    rw [List.sum_replicate, nsmul_eq_mul]
    rw [mul_comm, mul_div_assoc, div_self (Nat.cast_ne_zero.mpr hpos.ne'), mul_one]
  refine ⟨_, evaluate_t_eq b _ hshape, hentry, ?_⟩
  rw [evaluate_vector_eq b _ rfl]
  congr 1
  simp only [constVol, NDArray.mk.injEq, true_and]
  apply List.eq_replicate_iff.mpr
  constructor
  · simp [hlen]
  · intro x hx
    simp only [List.mem_map] at hx
    obtain ⟨e, he, rfl⟩ := hx
    have hbd := rbin_mem_bounds b.N b.nbins hb e he
    have htn : (e.toNat : ℤ) = e := Int.toNat_of_nonneg hbd.1
    have hlt : e.toNat < b.nbins := by omega
    have hcnt : 0 < b.rbin.count ((e.toNat : ℕ) : ℤ) := by
      rw [htn]
      exact List.count_pos_iff.mpr he
    exact hentry e.toNat hlt hcnt

theorem constant_volume_roundtrip_witness :
    ∃ c, evaluate_t (construct 3 (some 2)) (constVol (construct 3 (some 2)).N 5) = .ok c ∧
      (∀ i, i < (construct 3 (some 2)).nbins →
        0 < (construct 3 (some 2)).rbin.count (i : ℤ) → c.data.getD i 0 = 5) ∧
      evaluate (construct 3 (some 2)) c = .ok (constVol (construct 3 (some 2)).N 5) :=
  constant_volume_roundtrip (construct 3 (some 2)) 5 (by decide) (by decide)

/-! ## A single bin collects the global mean (C10) -/

theorem rintSqrt_zero : rintSqrt 0 = 0 := by
  norm_num [rintSqrt]

theorem rbinFlat_nbins_one (N : ℕ) : rbinFlat N 1 = List.replicate (N * N * N) 0 := by
  apply List.eq_replicate_iff.mpr
  refine ⟨by simp [rbinFlat, rsqFlat], ?_⟩
  intro e he
  simp only [rbinFlat, List.mem_map] at he
  obtain ⟨q, -, rfl⟩ := he
  have hraw : rbinRawEntry N 1 q = 0 := by
    unfold rbinRawEntry
    norm_num [rintSqrt_zero]
  rw [hraw]
  simp [npClip]

theorem foldr_zip_replicate_zero (vals : List ℚ) (n : ℕ) (h : n = vals.length) :
    ((List.replicate n (0 : ℤ)).zip vals).foldr
      (fun p acc => if p.1 = 0 then p.2 + acc else acc) 0 = vals.sum := by
  induction vals generalizing n with
  | nil => subst h; simp
  | cons x vs ih =>
    subst h
    simp [List.replicate_succ, List.zip_cons_cons, ih vs.length rfl]

/-- C10: with `nbins = 1` (and positive maximum radius) every voxel is assigned
bin 0, the forward transform returns the one-element vector holding the mean of
all `N³` voxel values, and the inverse transform of a one-element vector fills
every voxel with that value. -/
theorem nbins_one_global_mean (b : IsotropicBasis3D) (vol : NDArray)
    (hb1 : b.nbins = 1) (hN : 1 ≤ b.N) (_hscale : 0 < rsqMax b.N)
    (hshape : vol.shape = [b.N, b.N, b.N]) (hwf : vol.wf) :
    b.rbin = List.replicate (b.N * b.N * b.N) 0 ∧
    evaluate_t b vol = .ok
      { shape := [1], data := [vol.data.sum / ((b.N * b.N * b.N : ℕ) : ℚ)] } ∧
    ∀ k : ℚ, evaluate b { shape := [1], data := [k] } = .ok
      { shape := [b.N, b.N, b.N], data := List.replicate (b.N * b.N * b.N) k } := by
  have hrb : b.rbin = List.replicate (b.N * b.N * b.N) 0 := by
    rw [IsotropicBasis3D.rbin, hb1]
    exact rbinFlat_nbins_one b.N
  have hdlen : vol.data.length = b.N * b.N * b.N := data_length_of_cube b vol hshape hwf
  have hpos : 0 < b.N * b.N * b.N := by
    have h0 : 0 < b.N := hN
    exact Nat.mul_pos (Nat.mul_pos h0 h0) h0
  refine ⟨hrb, ?_, ?_⟩
  · rw [evaluate_t_eq b vol hshape]
    have h1 : List.range 1 = [0] := rfl
    have hsum : (bincountW b.rbin vol.data b.nbins) = [vol.data.sum] := by
      rw [hb1]
      simp only [bincountW, h1, List.map_cons, List.map_nil, Nat.cast_zero]
      rw [hrb, foldr_zip_replicate_zero vol.data _ hdlen.symm]
    have hcnt : (bincount b.rbin b.nbins) = [b.N * b.N * b.N] := by
      rw [hb1]
      simp only [bincount, h1, List.map_cons, List.map_nil, Nat.cast_zero]
      rw [hrb, List.count_replicate]
      simp
    rw [hsum, hcnt, hb1]
    simp [hpos]
  · intro k
    have hc : (({ shape := [1], data := [k] } : NDArray)).shape = [b.nbins] := by
      rw [hb1]
    rw [evaluate_vector_eq b _ hc]
    congr 1
    simp only [NDArray.mk.injEq, true_and]
    rw [hrb, List.map_replicate]
    rfl

theorem nbins_one_global_mean_witness :
    (construct 2 (some 1)).rbin =
      List.replicate ((construct 2 (some 1)).N * (construct 2 (some 1)).N *
        (construct 2 (some 1)).N) 0 ∧
    evaluate_t (construct 2 (some 1)) { shape := [2, 2, 2], data := [1, 2, 3, 4, 5, 6, 7, 8] } =
      .ok { shape := [1],
            data := [([1, 2, 3, 4, 5, 6, 7, 8] : List ℚ).sum /
              (((construct 2 (some 1)).N * (construct 2 (some 1)).N *
                (construct 2 (some 1)).N : ℕ) : ℚ)] } ∧
    ∀ k : ℚ, evaluate (construct 2 (some 1)) { shape := [1], data := [k] } = .ok
      { shape := [(construct 2 (some 1)).N, (construct 2 (some 1)).N, (construct 2 (some 1)).N],
        data := List.replicate ((construct 2 (some 1)).N * (construct 2 (some 1)).N *
            (construct 2 (some 1)).N) k } :=
  nbins_one_global_mean (construct 2 (some 1))
    { shape := [2, 2, 2], data := [1, 2, 3, 4, 5, 6, 7, 8] }
    rfl (by decide) (by simp [construct, rsqMax_two]) rfl (by simp [NDArray.wf])

/-! ## The center voxel of an odd grid (C5 amended) -/

/-- C5 (amended): for odd `N` (where the grid has a unique center voxel, at
grid index `c = (N-1)/2` on each axis, hence flat index `c·N² + c·N + c`) and
any `nbins ≥ 1`, the center voxel is assigned bin 0: its radius is exactly 0.
For even `N` the central voxels have positive radius and are in general not
assigned bin 0 (`even_N_center_not_bin_zero`). -/
theorem center_bin_zero_of_odd (N nbins : ℕ) (hodd : Odd N) (hb : 1 ≤ nbins) :
    (rbinFlat N nbins).getD
      ((N - 1) / 2 * (N * N) + (N - 1) / 2 * N + (N - 1) / 2) 0 = 0 := by
  obtain ⟨t, ht⟩ := hodd
  have hc : (N - 1) / 2 = t := by omega
  have htN : t < N := by omega
  have hNpos : 0 < N := by omega
  set v := (N - 1) / 2 * (N * N) + (N - 1) / 2 * N + (N - 1) / 2 with hv
  have hville : v = t + N * (t + N * t) := by rw [hv, hc]; ring
  have hvlt : v < N * N * N := by
    have h1 : t + 1 ≤ N := htN
    nlinarith [h1, hNpos]
  have hmod : v % N = t := by
    rw [hville, Nat.add_mul_mod_self_left, Nat.mod_eq_of_lt htN]
  have hdivN : v / N % N = t := by
    rw [hville, Nat.add_mul_div_left _ _ hNpos, Nat.div_eq_of_lt htN, Nat.zero_add,
      Nat.add_mul_mod_self_left, Nat.mod_eq_of_lt htN]
  have hdivNN : v / (N * N) = t := by
    have hville2 : v = (t + t * N) + (N * N) * t := by rw [hville]; ring
    have hlt2 : t + t * N < N * N := by nlinarith [htN, hNpos]
    rw [hville2, Nat.add_mul_div_left _ _ (Nat.mul_pos hNpos hNpos),
      Nat.div_eq_of_lt hlt2, Nat.zero_add]
  unfold rbinFlat rsqFlat
  rw [List.map_map]
  rw [getD_map_range _ _ _ hvlt]
  simp only [Function.comp]
  rw [hdivNN, hdivN, hmod]
  have hcoord : coordC N t = 0 := by
    unfold coordC
    rw [ht]
    push_cast
    ring
  have hrsq : rsq N t t t = 0 := by
    unfold rsq
    rw [hcoord]
    ring
  rw [hrsq]
  have hraw : rbinRawEntry N nbins 0 = 0 := by
    unfold rbinRawEntry
    norm_num [rintSqrt_zero]
  rw [hraw]
  unfold npClip
  omega

theorem center_bin_zero_of_odd_witness :
    (rbinFlat 3 2).getD ((3 - 1) / 2 * (3 * 3) + (3 - 1) / 2 * 3 + (3 - 1) / 2) 0 = 0 :=
  center_bin_zero_of_odd 3 2 ⟨1, by norm_num⟩ (by norm_num)

/-! ## Validation of the square-root-free embedding against `Real.sqrt` -/

theorem rsqMax_nonneg_aux (l : List ℚ) : 0 ≤ l.foldr max 0 := by
  induction l with
  | nil => simp
  | cons x xs ih => exact le_trans ih (le_max_right x _)

theorem rsqMax_nonneg (N : ℕ) : 0 ≤ rsqMax N := rsqMax_nonneg_aux _

theorem rsqFlat_nonneg (N : ℕ) : ∀ q ∈ rsqFlat N, 0 ≤ q := by
  intro q hq
  simp only [rsqFlat, List.mem_map] at hq
  obtain ⟨v, -, rfl⟩ := hq
  unfold rsq
  positivity

/-- The identity `√a / √b * m = √(a/b · m²)` justifying that `rbinRawEntry`
carries the squared scaled radius under the (exact) square root. -/
theorem sqrt_div_mul_eq (a b m : ℚ) (ha : 0 ≤ a) (hb : 0 ≤ b) (hm : 0 ≤ m) :
    Real.sqrt (a : ℝ) / Real.sqrt (b : ℝ) * (m : ℝ) =
      Real.sqrt ((a / b * m ^ 2 : ℚ) : ℝ) := by
  have ha' : (0:ℝ) ≤ (a:ℝ) := by exact_mod_cast ha
  have hb' : (0:ℝ) ≤ (b:ℝ) := by exact_mod_cast hb
  have hm' : (0:ℝ) ≤ (m:ℝ) := by exact_mod_cast hm
  push_cast
  rw [Real.sqrt_mul (by positivity), Real.sqrt_div ha', Real.sqrt_sq hm']

/-- The fold over squared radii computes the square of `r.max()`:
`√(rsqMax N)` is the maximum of the per-voxel radii `√(rsq)`. -/
theorem sqrt_rsqMax (N : ℕ) :
    Real.sqrt ((rsqMax N : ℚ) : ℝ) =
      ((rsqFlat N).map (fun q => Real.sqrt ((q : ℚ) : ℝ))).foldr max 0 := by
  unfold rsqMax
  induction (rsqFlat N) with
  | nil => simp
  | cons x xs ih =>
    simp only [List.foldr_cons, List.map_cons]
    rw [← ih, Rat.cast_max]
    have hmono : Monotone Real.sqrt := fun _ _ hab => Real.sqrt_le_sqrt hab
    exact hmono.map_max

theorem floor_sqrt_eq (q : ℚ) (hq : 0 ≤ q) :
    ⌊Real.sqrt ((q : ℚ) : ℝ)⌋ = (Nat.sqrt ⌊q⌋₊ : ℤ) := by
  have hq' : (0:ℝ) ≤ ((q:ℚ):ℝ) := by exact_mod_cast hq
  set n := Nat.sqrt ⌊q⌋₊ with hn
  have hfl : ((⌊q⌋₊ : ℚ) : ℝ) ≤ ((q:ℚ):ℝ) := by
    exact_mod_cast Nat.floor_le hq
  have hlow : ((n : ℝ)) ≤ Real.sqrt ((q:ℚ):ℝ) := by
    have h1 : n ^ 2 ≤ ⌊q⌋₊ := Nat.sqrt_le' _
    have h2 : ((n:ℝ)) ^ 2 ≤ ((q:ℚ):ℝ) := le_trans (by exact_mod_cast h1) hfl
    have h3 : Real.sqrt ((n:ℝ) ^ 2) ≤ Real.sqrt ((q:ℚ):ℝ) := Real.sqrt_le_sqrt h2
    rwa [Real.sqrt_sq (by positivity)] at h3
  have hhigh : Real.sqrt ((q:ℚ):ℝ) < (n : ℝ) + 1 := by
    have h1 : ⌊q⌋₊ < (n + 1) ^ 2 := Nat.lt_succ_sqrt' _
    have h2 : ((q:ℚ):ℝ) < ((n:ℝ) + 1) ^ 2 := by
      have h3 : (q : ℚ) < (⌊q⌋₊ : ℚ) + 1 := Nat.lt_floor_add_one q
      have h4 : ((q:ℚ):ℝ) < ((⌊q⌋₊ : ℕ) : ℝ) + 1 := by exact_mod_cast h3
      have h5 : ((⌊q⌋₊ : ℕ) : ℝ) + 1 ≤ ((n:ℝ) + 1) ^ 2 := by
        exact_mod_cast Nat.succ_le_of_lt h1
      linarith
    calc Real.sqrt ((q:ℚ):ℝ) < Real.sqrt (((n:ℝ) + 1) ^ 2) := Real.sqrt_lt_sqrt hq' h2
      _ = (n : ℝ) + 1 := Real.sqrt_sq (by positivity)
  rw [Int.floor_eq_iff]
  constructor
  · exact_mod_cast hlow
  · exact_mod_cast hhigh

/-- Correctness of `rintSqrt`: it is round-half-to-even of the real `√q`: writing
`n = ⌊√q⌋`, it returns `n` when the fractional part is below `1/2`, `n+1` when
above, and the even of `{n, n+1}` at an exact tie. -/
theorem rintSqrt_spec (q : ℚ) (hq : 0 ≤ q) :
    (⌊Real.sqrt ((q : ℚ) : ℝ)⌋ = (Nat.sqrt ⌊q⌋₊ : ℤ)) ∧
    (Real.sqrt ((q:ℚ):ℝ) - (Nat.sqrt ⌊q⌋₊ : ℝ) < 1/2 → rintSqrt q = (Nat.sqrt ⌊q⌋₊ : ℤ)) ∧
    (1/2 < Real.sqrt ((q:ℚ):ℝ) - (Nat.sqrt ⌊q⌋₊ : ℝ) →
      rintSqrt q = (Nat.sqrt ⌊q⌋₊ : ℤ) + 1) ∧
    (Real.sqrt ((q:ℚ):ℝ) - (Nat.sqrt ⌊q⌋₊ : ℝ) = 1/2 →
      rintSqrt q = if Even (Nat.sqrt ⌊q⌋₊) then (Nat.sqrt ⌊q⌋₊ : ℤ)
        else (Nat.sqrt ⌊q⌋₊ : ℤ) + 1) := by
  have hq' : (0:ℝ) ≤ ((q:ℚ):ℝ) := by exact_mod_cast hq
  set n := Nat.sqrt ⌊q⌋₊ with hn
  have hc : (0:ℝ) < (n : ℝ) + 1/2 := by positivity
  have hlt : Real.sqrt ((q:ℚ):ℝ) < (n:ℝ) + 1/2 ↔ q < ((n:ℚ) + 1/2) ^ 2 := by
    rw [Real.sqrt_lt' hc]
    rw [show ((n:ℝ) + 1/2) ^ 2 = ((((n:ℚ) + 1/2) ^ 2 : ℚ) : ℝ) by push_cast; ring]
    exact Rat.cast_lt
  have hgt : (n:ℝ) + 1/2 < Real.sqrt ((q:ℚ):ℝ) ↔ ((n:ℚ) + 1/2) ^ 2 < q := by
    rw [Real.lt_sqrt (by positivity)]
    rw [show ((n:ℝ) + 1/2) ^ 2 = ((((n:ℚ) + 1/2) ^ 2 : ℚ) : ℝ) by push_cast; ring]
    exact Rat.cast_lt
  refine ⟨floor_sqrt_eq q hq, ?_, ?_, ?_⟩
  · intro h
    have h1 : q < ((n:ℚ) + 1/2) ^ 2 := hlt.mp (by linarith)
    unfold rintSqrt
    rw [← hn, if_pos h1]
  · intro h
    have h1 : ((n:ℚ) + 1/2) ^ 2 < q := hgt.mp (by linarith)
    unfold rintSqrt
    rw [← hn, if_neg (by linarith), if_pos h1]
  · intro h
    have h1 : ¬ (q < ((n:ℚ) + 1/2) ^ 2) := by
      intro hcon
      have := hlt.mpr hcon
      linarith
    have h2 : ¬ (((n:ℚ) + 1/2) ^ 2 < q) := by
      intro hcon
      have := hgt.mpr hcon
      linarith
    unfold rintSqrt
    rw [← hn, if_neg h1, if_neg h2]

/-- Composition of the two previous facts at the argument actually used by
`rbinRawEntry`: the exact value of line 27's `(r / rmax) * (nbins - 1)` is the
square root of the rational number handed to `rintSqrt`. -/
theorem scaled_radius_eq (N nbins : ℕ) (q : ℚ) (hq : 0 ≤ q) (hb : 1 ≤ nbins) :
    Real.sqrt ((q : ℚ) : ℝ) / Real.sqrt ((rsqMax N : ℚ) : ℝ) * ((nbins : ℝ) - 1) =
      Real.sqrt ((q / rsqMax N * ((nbins : ℚ) - 1) ^ 2 : ℚ) : ℝ) := by
  have hm : (0:ℚ) ≤ (nbins : ℚ) - 1 := by
    have h1 : (1:ℚ) ≤ (nbins : ℚ) := by exact_mod_cast hb
    linarith
  have h := sqrt_div_mul_eq q (rsqMax N) ((nbins : ℚ) - 1) hq (rsqMax_nonneg N) hm
  rw [← h]
  push_cast
  ring
